import Mathlib

/-!
Verification development for the corpus-analysis engine of
src/uhlumagama_web.py (IsiZulu Corpus Analysis Toolkit).

The Python source is shallowly embedded: pure library calls
(RegexpTokenizer(r'\w+').tokenize, collections.Counter / nltk.FreqDist,
Python's stable sorted, nltk.ngrams, str.lower / str.isalpha on ASCII) become
executable Lean functions on lists, and the two analysis branches that can
raise (Corpus Statistics, Letter Frequency) return Except values whose error
constructor models the raised Python exception.
-/

namespace Uhlu

/-! ## Characters

ASCII models of Python's character predicates and of str.lower.
Char.toLower is the Lean core function: it maps the 26 uppercase ASCII
letters down by 32 and leaves every other character unchanged, which is
exactly Python's str.lower on ASCII text. -/

/-- A word character of the tokenizer pattern, the regex class of
RegexpTokenizer(r'\w+'): letter, digit or underscore (ASCII model). -/
def isWordChar (c : Char) : Bool :=
  c.isAlphanum || c = '_'

/-- Python str.lower on a whole string (ASCII model): lowercase each
character. -/
def lowerStr (s : String) : String :=
  String.mk (s.data.map Char.toLower)

/-! ## Tokenizer

tokenizer = RegexpTokenizer(r'\w+'); tokenizer.tokenize(text) returns the
maximal runs of word characters of the text, in order; every other character
separates tokens and is dropped (src/uhlumagama_web.py line 65 and 114). -/

/-- Scanner behind tokenize: walks the characters, holding the current
run of word characters in acc (reversed); a non-word character closes the
run, and the end of the text closes a pending run. -/
def tokenizeAux : List Char → List Char → List (List Char)
  | [], acc => if acc.isEmpty then [] else [acc.reverse]
  | c :: cs, acc =>
    if isWordChar c then
      tokenizeAux cs (c :: acc)
    else if acc.isEmpty then
      tokenizeAux cs acc
    else
      acc.reverse :: tokenizeAux cs []

/-- tokenizer.tokenize(text): the maximal runs of word characters, in
original order. -/
def tokenize (s : String) : List String :=
  (tokenizeAux s.data []).map fun cs => String.mk cs

/-! ## Frequency distribution

collections.Counter and nltk.FreqDist both count occurrences in one pass
over the items and, like every Python dict, keep their keys in insertion
(first-occurrence) order. The table is embedded as an association list of
(item, count) pairs in that key order. -/

/-- One counting step: add one occurrence of w to the table; a new key is
appended at the end, preserving first-occurrence order. -/
def bump {α : Type} [DecidableEq α] (w : α) : List (α × Nat) → List (α × Nat)
  | [] => [(w, 1)]
  | (k, c) :: rest => if k = w then (k, c + 1) :: rest else (k, c) :: bump w rest

/-- Counter(items) / FreqDist(items): the count table of the items, keys in
first-occurrence order. -/
def counter {α : Type} [DecidableEq α] (items : List α) : List (α × Nat) :=
  items.foldl (fun acc w => bump w acc) []

/-! ## Python's stable descending sort

sorted(freq_dist.items(), key=lambda x: x[1], reverse=True) is a stable
sort: entries with equal counts keep their original (first-occurrence)
order. Any stable sort computes the same list, so it is embedded as a
stable insertion sort: an entry is inserted in front of the first entry
whose count is not larger, hence never in front of an equally-counted
entry that came earlier. -/

/-- Stable descending insertion: place x after every entry with a strictly
larger count and after no entry with a smaller-or-equal count. -/
def insertDesc {α : Type} (x : α × Nat) : List (α × Nat) → List (α × Nat)
  | [] => [x]
  | y :: ys => if x.2 < y.2 then y :: insertDesc x ys else x :: y :: ys

/-- Stable sort by count descending, as Python's sorted(key=count,
reverse=True) computes on the table. -/
def sortDesc {α : Type} : List (α × Nat) → List (α × Nat)
  | [] => []
  | x :: xs => insertDesc x (sortDesc xs)

/-! ## Word List branch (src/uhlumagama_web.py lines 159 to 193) -/

/-- freq_df: the count table of the tokens sorted by frequency descending
(ties keep first-occurrence order, Python's sort being stable). -/
def freqDF (tokens : List String) : List (String × Nat) :=
  sortDesc (counter tokens)

/-- filtered_df: rows of freq_df with Frequency at least min_freq, then
head(top_n). -/
def filteredDF (tokens : List String) (topn minFreq : Nat) : List (String × Nat) :=
  ((freqDF tokens).filter fun p => minFreq ≤ p.2).take topn

/-! ## N-grams branch (src/uhlumagama_web.py lines 274 to 305) -/

/-- nltk.ngrams(tokens, n): the sliding windows of n consecutive tokens, in
order of their start position. -/
def ngrams : List String → Nat → List (List String)
  | [], _ => []
  | x :: xs, n =>
    if 0 < n ∧ n ≤ (x :: xs).length then (x :: xs).take n :: ngrams xs n else []

/-- The counting key of a window: its tokens joined by a single space,
as in FreqDist([" ".join(gram) for gram in n_grams]). -/
def joinSpace (gram : List String) : String :=
  String.intercalate " " gram

/-- The general path of the N-grams branch: form the windows, join each with
a single space, and count the joined keys. -/
def nGramFreqGeneral (tokens : List String) (n : Nat) : List (String × Nat) :=
  counter ((ngrams tokens n).map joinSpace)

/-- n_gram_freq: for n == 1 the branch takes a fast path and counts the
token list itself; otherwise it counts the space-joined windows. -/
def nGramFreq (tokens : List String) (n : Nat) : List (String × Nat) :=
  if n = 1 then counter tokens else nGramFreqGeneral tokens n

/-! ## Keyness significance banding (src/uhlumagama_web.py lines 254 to 258) -/

/-- The Significance lambda of the Keyness branch, on the Log Likelihood
column; the log-likelihood value is modelled as an exact rational. -/
def significance (x : ℚ) : String :=
  if x > 15.13 then "Very High"
  else if x > 10.83 then "High"
  else if x > 6.63 then "Medium"
  else "Low"

/-! ## Letter Frequency branch (src/uhlumagama_web.py lines 347 to 387) -/

/-- letters = [char.lower() for char in text if char.isalpha()]
(ASCII model of isalpha and lower); the text is its character list. -/
def letters (textChars : List Char) : List Char :=
  (textChars.filter Char.isAlpha).map Char.toLower

/-- letter_freq = Counter(letters). -/
def letterFreq (textChars : List Char) : List (Char × Nat) :=
  counter (letters textChars)

/-- What the Letter Frequency branch computes when it completes: the rows
sorted by frequency descending, the Total Letters and Unique Letters
metrics, and the Most Common row letter_df.iloc[0]. Display-only
decoration (uppercasing the letter, rounding the percentage to two
decimals) is omitted from the result. -/
structure LetterFreqResult where
  table : List (Char × Nat)
  totalLetters : Nat
  uniqueLetters : Nat
  mostCommon : Char × Nat
deriving Repr, DecidableEq

/-- The Letter Frequency branch. It builds letter_freq, the total
total_letters = sum(letter_freq.values()), and the rows sorted by frequency
descending; the Most Common metric reads letter_df.iloc[0], which raises
IndexError when the table is empty (text with no alphabetic character). -/
def letterFrequencyBranch (textChars : List Char) : Except String LetterFreqResult :=
  let freq := letterFreq textChars
  let total := (freq.map Prod.snd).sum
  let rows := sortDesc freq
  match rows with
  | [] => Except.error "IndexError"
  | top :: _ =>
    Except.ok
      { table := rows
        totalLetters := total
        uniqueLetters := freq.length
        mostCommon := top }

/-! ## Corpus Statistics branch (src/uhlumagama_web.py lines 389 to 437) -/

/-- What the Word Count and Statistics branch computes when it completes.
Rational fields stand for the Python float divisions, exactly. -/
structure CorpusStatsResult where
  totalWords : Nat
  uniqueWords : Nat
  totalChars : Nat
  totalSentences : Nat
  lexicalDiversity : ℚ
  avgWordsPerSentence : Option ℚ
  avgWordLength : ℚ
  minWordLength : Option Nat
  maxWordLength : Option Nat
  charsExcludingSpaces : Nat
  vocabularyRichness : ℚ
deriving Repr, DecidableEq

/-- The Corpus Statistics branch. The Lexical Diversity metric divides
unique_words/total_words with no guard, so the branch raises
ZeroDivisionError when total_words == 0 (line 409); avg_word_length is
guarded by the emptiness test on word_lengths (line 417), the min and max
word lengths display N/A when there are no words (lines 429 to 430), and
Avg Words/Sentence is guarded by total_sentences > 0 (line 410). The
sentence list comes from sent_tokenize and is passed in already split. -/
def statsBranch (tokens : List String) (textChars : List Char)
    (sentences : List String) : Except String CorpusStatsResult :=
  let total_words := tokens.length
  let unique_words := tokens.dedup.length
  let total_chars := textChars.length
  let total_sentences := sentences.length
  if total_words = 0 then Except.error "ZeroDivisionError"
  else
    let word_lengths := tokens.map String.length
    Except.ok
      { totalWords := total_words
        uniqueWords := unique_words
        totalChars := total_chars
        totalSentences := total_sentences
        lexicalDiversity := (unique_words : ℚ) / (total_words : ℚ)
        avgWordsPerSentence :=
          if 0 < total_sentences then some ((total_words : ℚ) / (total_sentences : ℚ))
          else none
        avgWordLength :=
          if word_lengths.isEmpty then 0
          else (word_lengths.sum : ℚ) / (word_lengths.length : ℚ)
        minWordLength := word_lengths.min?
        maxWordLength := word_lengths.max?
        charsExcludingSpaces := (textChars.filter fun c => !c.isWhitespace).length
        vocabularyRichness := (unique_words : ℚ) / (total_words : ℚ) * 100 }

/-! ## Concordance branch (src/uhlumagama_web.py lines 195 to 228) -/

/-- Modelled from the spec: the match search of the Concordance branch is
nltk.Text.concordance_list, library code that is not part of this
repository; the branch calls it as concordance_list(search_word.lower()).
Per the spec, the query is lowercased and compared case-insensitively by
exact match against each token, and matches come back in ascending
token-index order. The result is the list of matching token indices. -/
def concordanceSearch (tokens : List String) (query : String) : List Nat :=
  (List.range tokens.length).filter fun i => lowerStr (tokens.getD i "") = lowerStr query

/-! ## Lemmas about the count table -/

theorem bump_sum {α : Type} [DecidableEq α] (w : α) (l : List (α × Nat)) :
    ((bump w l).map Prod.snd).sum = (l.map Prod.snd).sum + 1 := by
  induction l with
  | nil => simp [bump]
  | cons p rest ih =>
    obtain ⟨k, c⟩ := p
    by_cases h : k = w
    · simp [bump, h]
      omega
    · simp [bump, h, ih]
      omega

theorem counter_go_sum {α : Type} [DecidableEq α] (items : List α)
    (acc : List (α × Nat)) :
    ((items.foldl (fun a w => bump w a) acc).map Prod.snd).sum
      = (acc.map Prod.snd).sum + items.length := by
  induction items generalizing acc with
  | nil => simp
  | cons w ws ih =>
    rw [List.foldl_cons, ih (bump w acc), bump_sum]
    simp
    omega

theorem counter_sum {α : Type} [DecidableEq α] (items : List α) :
    ((counter items).map Prod.snd).sum = items.length := by
  simpa using counter_go_sum items []

/-- Claim C7: for every token sequence, the counts of the frequency
distribution built from it sum to the length of the token sequence. -/
theorem counter_total_eq_length (tokens : List String) :
    ((counter tokens).map Prod.snd).sum = tokens.length :=
  counter_sum tokens

theorem bump_keys {α : Type} [DecidableEq α] (w : α) (l : List (α × Nat)) :
    (bump w l).map Prod.fst
      = if w ∈ l.map Prod.fst then l.map Prod.fst else l.map Prod.fst ++ [w] := by
  induction l with
  | nil => simp [bump]
  | cons p rest ih =>
    obtain ⟨k, c⟩ := p
    by_cases h : k = w
    · subst h
      simp [bump]
    · simp only [bump, if_neg h, List.map_cons, ih]
      by_cases hw : w ∈ rest.map Prod.fst
      · rw [if_pos hw, if_pos (List.mem_cons_of_mem (k, c).1 hw)]
      · have hnm : w ∉ (k, c).1 :: rest.map Prod.fst := by
          intro hmem
          rcases List.mem_cons.mp hmem with he | hm
          · exact h he.symm
          · exact hw hm
        rw [if_neg hw, if_neg hnm]
        exact (List.cons_append k _ _).symm

theorem bump_keys_nodup {α : Type} [DecidableEq α] (w : α) (l : List (α × Nat))
    (h : (l.map Prod.fst).Nodup) : ((bump w l).map Prod.fst).Nodup := by
  rw [bump_keys]
  by_cases hw : w ∈ l.map Prod.fst
  · simpa [hw] using h
  · rw [if_neg hw, List.nodup_append]
    refine ⟨h, List.nodup_singleton w, ?_⟩
    intro a ha hb
    simp only [List.mem_singleton] at hb
    subst hb
    exact hw ha

theorem counter_keys_nodup {α : Type} [DecidableEq α] (items : List α) :
    ((counter items).map Prod.fst).Nodup := by
  suffices H : ∀ (its : List α) (acc : List (α × Nat)), (acc.map Prod.fst).Nodup →
      ((its.foldl (fun a w => bump w a) acc).map Prod.fst).Nodup by
    exact H items [] (by simp)
  intro its
  induction its with
  | nil =>
    intro acc hacc
    simpa using hacc
  | cons w ws ih =>
    intro acc hacc
    exact ih (bump w acc) (bump_keys_nodup w acc hacc)

theorem counter_nodup {α : Type} [DecidableEq α] (items : List α) :
    (counter items).Nodup :=
  (counter_keys_nodup items).of_map Prod.fst

theorem mem_bump_fst {α : Type} [DecidableEq α] {p : α × Nat} (w : α)
    (l : List (α × Nat)) (h : p ∈ bump w l) : p.1 = w ∨ p.1 ∈ l.map Prod.fst := by
  induction l with
  | nil =>
    have hp : p = (w, 1) := by simpa [bump] using h
    subst hp
    left
    rfl
  | cons q rest ih =>
    obtain ⟨k, c⟩ := q
    by_cases hk : k = w
    · subst hk
      simp only [bump, if_pos rfl] at h
      cases h with
      | head =>
        left
        rfl
      | tail _ hm =>
        right
        exact List.mem_cons_of_mem _ (List.mem_map_of_mem Prod.fst hm)
    · simp only [bump, if_neg hk] at h
      cases h with
      | head =>
        right
        exact List.mem_map_of_mem Prod.fst (List.mem_cons_self _ _)
      | tail _ hm =>
        rcases ih hm with h1 | h1
        · left
          exact h1
        · right
          exact List.mem_cons_of_mem _ h1

theorem mem_counter_fst {α : Type} [DecidableEq α] {p : α × Nat} {items : List α}
    (h : p ∈ counter items) : p.1 ∈ items := by
  suffices H : ∀ (its : List α) (acc : List (α × Nat)),
      p ∈ its.foldl (fun a w => bump w a) acc → p.1 ∈ acc.map Prod.fst ∨ p.1 ∈ its by
    rcases H items [] h with h1 | h1
    · simp at h1
    · exact h1
  intro its
  induction its with
  | nil =>
    intro acc hm
    simp only [List.foldl_nil] at hm
    left
    exact List.mem_map_of_mem Prod.fst hm
  | cons w ws ih =>
    intro acc hm
    rcases ih (bump w acc) hm with h1 | h1
    · rw [bump_keys] at h1
      by_cases hw : w ∈ acc.map Prod.fst
      · rw [if_pos hw] at h1
        left
        exact h1
      · rw [if_neg hw] at h1
        rcases List.mem_append.mp h1 with h2 | h2
        · left
          exact h2
        · right
          simp only [List.mem_singleton] at h2
          rw [h2]
          exact List.mem_cons_self w ws
    · right
      exact List.mem_cons_of_mem w h1

/-! ## Lemmas about the stable descending sort -/

theorem insertDesc_perm {α : Type} (x : α × Nat) (l : List (α × Nat)) :
    (insertDesc x l).Perm (x :: l) := by
  induction l with
  | nil => exact List.Perm.refl _
  | cons y ys ih =>
    simp only [insertDesc]
    by_cases h : x.2 < y.2
    · rw [if_pos h]
      exact (ih.cons y).trans (List.Perm.swap x y ys)
    · rw [if_neg h]

theorem sortDesc_perm {α : Type} (l : List (α × Nat)) : (sortDesc l).Perm l := by
  induction l with
  | nil => exact List.Perm.refl _
  | cons x xs ih =>
    simp only [sortDesc]
    exact (insertDesc_perm x (sortDesc xs)).trans (ih.cons x)

theorem insertDesc_pairwise {α : Type} (x : α × Nat) {l : List (α × Nat)}
    (h : l.Pairwise fun a b => b.2 ≤ a.2) :
    (insertDesc x l).Pairwise fun a b => b.2 ≤ a.2 := by
  induction l with
  | nil => simp [insertDesc]
  | cons y ys ih =>
    rcases List.pairwise_cons.mp h with ⟨hy, hys⟩
    simp only [insertDesc]
    by_cases hk : x.2 < y.2
    · rw [if_pos hk]
      refine List.pairwise_cons.mpr ⟨?_, ih hys⟩
      intro z hz
      rcases List.mem_cons.mp ((insertDesc_perm x ys).mem_iff.mp hz) with rfl | hz'
      · exact le_of_lt hk
      · exact hy z hz'
    · rw [if_neg hk]
      rw [not_lt] at hk
      refine List.pairwise_cons.mpr ⟨?_, h⟩
      intro z hz
      rcases List.mem_cons.mp hz with rfl | hz'
      · exact hk
      · exact le_trans (hy z hz') hk

theorem sortDesc_pairwise {α : Type} (l : List (α × Nat)) :
    (sortDesc l).Pairwise fun a b => b.2 ≤ a.2 := by
  induction l with
  | nil => simp [sortDesc]
  | cons x xs ih =>
    simp only [sortDesc]
    exact insertDesc_pairwise x ih

theorem sublist_insertDesc {α : Type} (x : α × Nat) (l : List (α × Nat)) :
    l.Sublist (insertDesc x l) := by
  induction l with
  | nil => simp [insertDesc]
  | cons y ys ih =>
    simp only [insertDesc]
    by_cases h : x.2 < y.2
    · rw [if_pos h]
      exact List.Sublist.cons₂ y ih
    · rw [if_neg h]
      exact List.Sublist.cons x (List.Sublist.refl _)

theorem pair_sublist_insertDesc {α : Type} (x y : α × Nat) {l : List (α × Nat)}
    (hy : y ∈ l) (hle : y.2 ≤ x.2) : [x, y].Sublist (insertDesc x l) := by
  induction l with
  | nil => simp at hy
  | cons z zs ih =>
    simp only [insertDesc]
    by_cases h : x.2 < z.2
    · rw [if_pos h]
      rcases List.mem_cons.mp hy with rfl | hy'
      · exact absurd h (not_lt.mpr hle)
      · exact List.Sublist.cons z (ih hy')
    · rw [if_neg h]
      exact List.Sublist.cons₂ x (List.singleton_sublist.mpr hy)

theorem sortDesc_stable {α : Type} (x y : α × Nat) (heq : x.2 = y.2) :
    ∀ l : List (α × Nat), [x, y].Sublist l → [x, y].Sublist (sortDesc l) := by
  intro l
  induction l with
  | nil =>
    intro h
    simp at h
  | cons z zs ih =>
    intro h
    simp only [sortDesc]
    cases h with
    | cons _ h' => exact (ih h').trans (sublist_insertDesc z (sortDesc zs))
    | cons₂ _ h' =>
      exact pair_sublist_insertDesc x y
        ((sortDesc_perm zs).mem_iff.mpr (List.singleton_sublist.mp h')) (le_of_eq heq.symm)

theorem pair_sublist_take {α : Type} (x y : α) :
    ∀ (l : List α) (n : Nat), l.Nodup → [x, y].Sublist l → y ∈ l.take n →
      [x, y].Sublist (l.take n) := by
  intro l
  induction l with
  | nil =>
    intro n _ _ hy
    simp at hy
  | cons z zs ih =>
    intro n hnd h hy
    cases n with
    | zero => simp at hy
    | succ m =>
      rw [List.take_succ_cons] at hy ⊢
      rcases List.nodup_cons.mp hnd with ⟨hz, hzs⟩
      cases h with
      | cons _ h' =>
        rcases List.mem_cons.mp hy with rfl | hy'
        · exact absurd (h'.subset (by simp)) hz
        · exact List.Sublist.cons z (ih m hzs h' hy')
      | cons₂ _ h' =>
        rcases List.mem_cons.mp hy with rfl | hy'
        · exact absurd (List.singleton_sublist.mp h') hz
        · exact List.Sublist.cons₂ x (List.singleton_sublist.mpr hy')

/-! ## Word List branch: the top-N query -/

/-- Claim C3: the Word List query returns at most
min(top_n, number of distinct tokens of frequency at least min_freq) rows,
sorted by frequency descending, ties between equal counts keeping the
first-occurrence order of the counting pass, and repeated runs on identical
input produce the identical list. -/
theorem filteredDF_spec (tokens : List String) (topn minFreq : Nat) :
    (filteredDF tokens topn minFreq).length
        ≤ min topn (((counter tokens).filter fun p => minFreq ≤ p.2).length)
      ∧ (filteredDF tokens topn minFreq).Pairwise (fun a b => b.2 ≤ a.2)
      ∧ (∀ x y : String × Nat, x.2 = y.2 → [x, y].Sublist (counter tokens) →
          y ∈ filteredDF tokens topn minFreq →
          [x, y].Sublist (filteredDF tokens topn minFreq))
      ∧ filteredDF tokens topn minFreq = filteredDF tokens topn minFreq := by
  have hcount : ((freqDF tokens).filter fun p => minFreq ≤ p.2).length
      = ((counter tokens).filter fun p => minFreq ≤ p.2).length := by
    rw [← List.countP_eq_length_filter, ← List.countP_eq_length_filter]
    exact (sortDesc_perm (counter tokens)).countP_eq _
  have hnodup : ((freqDF tokens).filter fun p => minFreq ≤ p.2).Nodup :=
    List.Nodup.sublist (List.filter_sublist _)
      ((sortDesc_perm (counter tokens)).symm.nodup (counter_nodup tokens))
  refine ⟨?_, ?_, ?_, rfl⟩
  · simp only [filteredDF, List.length_take, hcount]
    exact le_refl _
  · exact List.Pairwise.sublist
      ((List.take_sublist _ _).trans (List.filter_sublist _)) (sortDesc_pairwise _)
  · intro x y heq hxy hymem
    simp only [filteredDF] at hymem ⊢
    have hyF : y ∈ (freqDF tokens).filter fun p => minFreq ≤ p.2 :=
      (List.take_sublist _ _).subset hymem
    have hpy : minFreq ≤ y.2 := by
      simpa using (List.mem_filter.mp hyF).2
    have hpx : minFreq ≤ x.2 := heq ▸ hpy
    have hL : [x, y].Sublist (freqDF tokens) := sortDesc_stable x y heq _ hxy
    have hF : [x, y].Sublist ((freqDF tokens).filter fun p => minFreq ≤ p.2) := by
      have hfil := List.Sublist.filter (fun p : String × Nat => decide (minFreq ≤ p.2)) hL
      simpa [List.filter_cons, hpx, hpy] using hfil
    exact pair_sublist_take x y _ topn hnodup hF hymem

/-! ## Significance banding -/

/-- Claim C4: a keyness log-likelihood value x is banded Very High when
x > 15.13, High when 10.83 < x and x is at most 15.13, Medium when
6.63 < x and x is at most 10.83, Low when x is at most 6.63; the boundary
values 15.13, 10.83 and 6.63 fall into the lower band. -/
theorem significance_spec (x : ℚ) :
    (15.13 < x → significance x = "Very High")
      ∧ (10.83 < x → x ≤ 15.13 → significance x = "High")
      ∧ (6.63 < x → x ≤ 10.83 → significance x = "Medium")
      ∧ (x ≤ 6.63 → significance x = "Low")
      ∧ significance 15.13 = "High"
      ∧ significance 10.83 = "Medium"
      ∧ significance 6.63 = "Low" := by
  refine ⟨?_, ?_, ?_, ?_, by norm_num [significance], by norm_num [significance],
    by norm_num [significance]⟩
  · intro h
    simp only [significance]
    rw [if_pos h]
  · intro h1 h2
    simp only [significance]
    rw [if_neg (not_lt.mpr h2), if_pos h1]
  · intro h1 h2
    simp only [significance]
    rw [if_neg (not_lt.mpr (le_trans h2 (by norm_num))), if_neg (not_lt.mpr h2), if_pos h1]
  · intro h
    simp only [significance]
    rw [if_neg (not_lt.mpr (le_trans h (by norm_num))),
      if_neg (not_lt.mpr (le_trans h (by norm_num))), if_neg (not_lt.mpr h)]

/-! ## N-gram lemmas -/

theorem ngrams_length (n : Nat) (hn : 1 ≤ n) :
    ∀ tokens : List String, (ngrams tokens n).length = tokens.length + 1 - n := by
  intro tokens
  induction tokens with
  | nil =>
    simp only [ngrams, List.length_nil]
    omega
  | cons x xs ih =>
    simp only [ngrams]
    by_cases h : n ≤ (x :: xs).length
    · rw [if_pos ⟨hn, h⟩]
      simp only [List.length_cons, ih]
      simp only [List.length_cons] at h
      omega
    · rw [if_neg fun hc => h hc.2]
      simp only [List.length_cons] at h
      simp only [List.length_nil, List.length_cons]
      omega

theorem ngrams_mem (n : Nat) : ∀ (tokens : List String) (w : List String),
    w ∈ ngrams tokens n →
      w.length = n ∧ ∃ i, i + n ≤ tokens.length ∧ w = (tokens.drop i).take n := by
  intro tokens
  induction tokens with
  | nil =>
    intro w hw
    simp [ngrams] at hw
  | cons x xs ih =>
    intro w hw
    simp only [ngrams] at hw
    by_cases h : 0 < n ∧ n ≤ (x :: xs).length
    · rw [if_pos h] at hw
      rcases List.mem_cons.mp hw with rfl | hw'
      · refine ⟨?_, 0, by simpa using h.2, by simp⟩
        rw [List.length_take]
        exact min_eq_left h.2
      · rcases ih w hw' with ⟨hl, i, hi, hweq⟩
        refine ⟨hl, i + 1, ?_, ?_⟩
        · simp only [List.length_cons]
          omega
        · simpa using hweq
    · rw [if_neg h] at hw
      simp at hw

theorem joinSpace_singleton (s : String) : joinSpace [s] = s := rfl

theorem ngrams_one_join (tokens : List String) :
    (ngrams tokens 1).map joinSpace = tokens := by
  induction tokens with
  | nil => rfl
  | cons x xs ih =>
    simp only [ngrams]
    rw [if_pos ⟨Nat.one_pos, by simp⟩]
    simp only [List.take_succ_cons, List.take_zero, List.map_cons, joinSpace_singleton, ih]

/-- Claim C5: for n at least 1 the n-gram generator produces exactly
len + 1 - n windows (so zero windows when len < n), each window is n
consecutive tokens in original order, the counting key joins a window
with single spaces, and the two documented examples hold. -/
theorem ngrams_spec (tokens : List String) (n : Nat) (hn : 1 ≤ n) :
    (ngrams tokens n).length = tokens.length + 1 - n
      ∧ (tokens.length < n → ngrams tokens n = [])
      ∧ (∀ w ∈ ngrams tokens n,
          w.length = n ∧ ∃ i, i + n ≤ tokens.length ∧ w = (tokens.drop i).take n)
      ∧ (ngrams ["a", "b", "c"] 2).map joinSpace = ["a b", "b c"]
      ∧ ngrams ["a"] 2 = [] := by
  refine ⟨ngrams_length n hn tokens, ?_, ?_, rfl, rfl⟩
  · intro hlt
    have hlen := ngrams_length n hn tokens
    have h0 : (ngrams tokens n).length = 0 := by omega
    exact List.length_eq_zero.mp h0
  · intro w hw
    exact ngrams_mem n tokens w hw

/-- Witness for ngrams_spec: window count at a concrete input. -/
theorem ngrams_spec_witness :
    (ngrams ["u", "v", "w"] 2).length = 3 + 1 - 2 :=
  (ngrams_spec ["u", "v", "w"] 2 (by norm_num)).1

/-- Claim C6: the n = 1 fast path of the N-grams branch (counting the token
list directly) computes the same table as the general path (forming the
windows and joining each with a single space before counting). -/
theorem nGramFreq_one_eq_general (tokens : List String) :
    nGramFreq tokens 1 = nGramFreqGeneral tokens 1 := by
  simp [nGramFreq, nGramFreqGeneral, ngrams_one_join]

/-! ## Character lemmas for lowercasing -/

theorem isUpper_toNat {c : Char} (h : c.isUpper = true) :
    65 ≤ c.toNat ∧ c.toNat ≤ 90 := by
  simp [Char.isUpper, Bool.and_eq_true] at h
  exact ⟨h.1, h.2⟩

theorem isLower_toNat {c : Char} (h : c.isLower = true) :
    97 ≤ c.toNat ∧ c.toNat ≤ 122 := by
  simp [Char.isLower, Bool.and_eq_true] at h
  exact ⟨h.1, h.2⟩

theorem toLower_of_isUpper {c : Char} (h : c.isUpper = true) :
    Char.toLower c = Char.ofNat (c.toNat + 32) := by
  obtain ⟨h1, h2⟩ := isUpper_toNat h
  simp only [Char.toLower]
  rw [if_pos ⟨h1, h2⟩]

theorem toLower_of_not_isUpper {c : Char} (h : c.isUpper = false) :
    Char.toLower c = c := by
  simp only [Char.toLower]
  rw [if_neg]
  intro hc
  have hu : c.isUpper = true := by
    simp [Char.isUpper, Bool.and_eq_true]
    exact ⟨hc.1, hc.2⟩
  rw [hu] at h
  exact absurd h (by simp)

theorem toLower_isLower_of_isAlpha {c : Char} (h : c.isAlpha = true) :
    (Char.toLower c).isLower = true := by
  have h2 : c.isUpper = true ∨ c.isLower = true := by
    simpa [Char.isAlpha] using h
  rcases h2 with hu | hl
  · obtain ⟨h1, h2⟩ := isUpper_toNat hu
    rw [toLower_of_isUpper hu]
    set m := c.toNat with hm
    interval_cases m <;> decide
  · have hu : c.isUpper = false := by
      cases hcu : c.isUpper
      · rfl
      · obtain ⟨h1, h2⟩ := isUpper_toNat hcu
        obtain ⟨h3, h4⟩ := isLower_toNat hl
        omega
    rw [toLower_of_not_isUpper hu]
    exact hl

theorem isAlpha_of_isLower {c : Char} (h : c.isLower = true) :
    c.isAlpha = true := by
  simp [Char.isAlpha, h]

theorem toLower_of_whitespace {c : Char} (h : c.isWhitespace = true) :
    Char.toLower c = c := by
  have hu : c.isUpper = false := by
    have hws : c = ' ' ∨ c = '\t' ∨ c = '\x0d' ∨ c = '\n' := by
      simpa [Char.isWhitespace, or_assoc] using h
    rcases hws with rfl | rfl | rfl | rfl <;> decide
  exact toLower_of_not_isUpper hu

theorem toLower_wordChar_not_whitespace {c : Char} (h : isWordChar c = true) :
    (Char.toLower c).isWhitespace = false := by
  cases hu : c.isUpper
  · rw [toLower_of_not_isUpper hu]
    cases hw : c.isWhitespace
    · rfl
    · have : isWordChar c = false := by
        have hws : c = ' ' ∨ c = '\t' ∨ c = '\x0d' ∨ c = '\n' := by
          simpa [Char.isWhitespace, or_assoc] using hw
        rcases hws with rfl | rfl | rfl | rfl <;> decide
      rw [this] at h
      exact absurd h (by simp)
  · obtain ⟨h1, h2⟩ := isUpper_toNat hu
    rw [toLower_of_isUpper hu]
    set m := c.toNat with hm
    interval_cases m <;> decide

/-! ## Tokenizer lemmas -/

theorem tokenizeAux_sound :
    ∀ (cs acc : List Char), (∀ c ∈ acc, isWordChar c = true) →
      ∀ t ∈ tokenizeAux cs acc, t ≠ [] ∧ ∀ c ∈ t, isWordChar c = true := by
  intro cs
  induction cs with
  | nil =>
    intro acc hacc t ht
    simp only [tokenizeAux] at ht
    by_cases h : acc.isEmpty
    · rw [if_pos h] at ht
      simp at ht
    · rw [if_neg h] at ht
      simp only [List.mem_singleton] at ht
      subst ht
      refine ⟨?_, ?_⟩
      · simp only [List.isEmpty_iff] at h
        simpa using h
      · intro c hc
        exact hacc c (List.mem_reverse.mp hc)
  | cons c cs ih =>
    intro acc hacc t ht
    simp only [tokenizeAux] at ht
    by_cases hw : isWordChar c = true
    · rw [if_pos hw] at ht
      refine ih (c :: acc) ?_ t ht
      intro d hd
      rcases List.mem_cons.mp hd with rfl | hd'
      · exact hw
      · exact hacc d hd'
    · rw [if_neg hw] at ht
      by_cases he : acc.isEmpty
      · rw [if_pos he] at ht
        exact ih acc hacc t ht
      · rw [if_neg he] at ht
        rcases List.mem_cons.mp ht with rfl | ht'
        · refine ⟨?_, ?_⟩
          · simp only [List.isEmpty_iff] at he
            simpa using he
          · intro d hd
            exact hacc d (List.mem_reverse.mp hd)
        · exact ih [] (by simp) t ht'

theorem tokenize_sound {t s : String} (ht : t ∈ tokenize s) :
    t.data ≠ [] ∧ ∀ c ∈ t.data, isWordChar c = true := by
  rcases List.mem_map.mp ht with ⟨cs, hcs, rfl⟩
  exact tokenizeAux_sound s.data [] (by simp) cs hcs

/-! ## Concordance lemmas -/

theorem lowerStr_ne_of_wordChars_whitespace {t q : String}
    (htne : t.data ≠ []) (htw : ∀ c ∈ t.data, isWordChar c = true)
    (hq : ∀ c ∈ q.data, c.isWhitespace = true) :
    lowerStr t ≠ lowerStr q := by
  intro heq
  have hdata : t.data.map Char.toLower = q.data.map Char.toLower :=
    congrArg String.data heq
  cases hT : t.data with
  | nil => exact htne hT
  | cons c cs =>
    rw [hT] at hdata
    cases hQ : q.data with
    | nil =>
      rw [hQ] at hdata
      simp at hdata
    | cons d ds =>
      rw [hQ] at hdata
      simp only [List.map_cons, List.cons.injEq] at hdata
      have hcw : isWordChar c = true := htw c (by rw [hT]; exact List.mem_cons_self c cs)
      have hdw : d.isWhitespace = true := hq d (by rw [hQ]; exact List.mem_cons_self d ds)
      have hnw : (Char.toLower c).isWhitespace = false :=
        toLower_wordChar_not_whitespace hcw
      rw [hdata.1, toLower_of_whitespace hdw, hdw] at hnw
      exact absurd hnw (by simp)

/-- Claim C8: concordance search lowercases the query and matches it
case-insensitively by exact comparison against each token, returns all
matches in ascending token-index order, and returns an empty sequence (not
an error) when there is no match or when the query is empty or whitespace
(concordance over tokenizer output). -/
theorem concordanceSearch_spec (tokens : List String) (query : String) (text : String) :
    (∀ i, i ∈ concordanceSearch tokens query ↔
        i < tokens.length ∧ lowerStr (tokens.getD i "") = lowerStr query)
      ∧ (concordanceSearch tokens query).Pairwise (· < ·)
      ∧ ((∀ i, i < tokens.length → lowerStr (tokens.getD i "") ≠ lowerStr query) →
          concordanceSearch tokens query = [])
      ∧ ((∀ c ∈ query.data, c.isWhitespace = true) →
          concordanceSearch (tokenize text) query = []) := by
  refine ⟨?_, ?_, ?_, ?_⟩
  · intro i
    constructor
    · intro hmem
      have h2 := List.mem_filter.mp hmem
      exact ⟨List.mem_range.mp h2.1, of_decide_eq_true h2.2⟩
    · intro hi
      exact List.mem_filter.mpr ⟨List.mem_range.mpr hi.1, decide_eq_true hi.2⟩
  · exact List.Pairwise.sublist (List.filter_sublist _) (List.pairwise_lt_range _)
  · intro h
    simp only [concordanceSearch]
    rw [List.filter_eq_nil_iff]
    intro i hi
    simp only [decide_eq_true_eq]
    exact h i (List.mem_range.mp hi)
  · intro hq
    simp only [concordanceSearch]
    rw [List.filter_eq_nil_iff]
    intro i hi
    simp only [decide_eq_true_eq]
    have hilt : i < (tokenize text).length := List.mem_range.mp hi
    have hmem : (tokenize text).getD i "" ∈ tokenize text := by
      rw [List.getD_eq_getElem _ _ hilt]
      exact List.getElem_mem hilt
    obtain ⟨hne, hwc⟩ := tokenize_sound hmem
    exact lowerStr_ne_of_wordChars_whitespace hne hwc hq

/-! ## Letter Frequency lemmas -/

theorem sum_map_div_mul (l : List (Char × Nat)) (T : ℚ) :
    (l.map fun p => (p.2 : ℚ) / T * 100).sum
      = ((l.map fun p => (p.2 : ℚ)).sum) / T * 100 := by
  induction l with
  | nil => simp
  | cons p rest ih =>
    simp only [List.map_cons, List.sum_cons, ih]
    ring

/-- Claim C10: the Letter Frequency analysis counts characters of the raw
text, not tokens: every key of its table is a single lowercase alphabetic
character, the counts sum to the number of characters of the text with
isalpha true (so digits and underscores are excluded), and the exact
percentages freq/total*100 sum to 100 whenever there is a letter. -/
theorem letterFreq_spec (textChars : List Char) :
    (∀ p ∈ letterFreq textChars, p.1.isAlpha = true ∧ p.1.isLower = true)
      ∧ ((letterFreq textChars).map Prod.snd).sum = (textChars.filter Char.isAlpha).length
      ∧ (letters textChars ≠ [] →
          ((letterFreq textChars).map
            fun p => (p.2 : ℚ) / (((letterFreq textChars).map Prod.snd).sum : ℚ) * 100).sum
            = 100) := by
  have hsum : ((letterFreq textChars).map Prod.snd).sum = (letters textChars).length :=
    counter_sum (letters textChars)
  refine ⟨?_, ?_, ?_⟩
  · intro p hp
    have h1 : p.1 ∈ letters textChars := mem_counter_fst hp
    rcases List.mem_map.mp h1 with ⟨c, hc, hlc⟩
    have hca : c.isAlpha = true := (List.mem_filter.mp hc).2
    have hlow : p.1.isLower = true := by
      rw [← hlc]
      exact toLower_isLower_of_isAlpha hca
    exact ⟨isAlpha_of_isLower hlow, hlow⟩
  · rw [hsum]
    simp [letters]
  · intro hne
    rw [sum_map_div_mul]
    have hcast : ((letterFreq textChars).map fun p => (p.2 : ℚ)).sum
        = (((letterFreq textChars).map Prod.snd).sum : ℚ) := by
      rw [Nat.cast_list_sum, List.map_map]
      rfl
    rw [hcast, hsum]
    have hpos : 0 < (letters textChars).length := List.length_pos.mpr hne
    have hne' : ((letters textChars).length : ℚ) ≠ 0 :=
      Nat.cast_ne_zero.mpr (Nat.pos_iff_ne_zero.mp hpos)
    rw [div_self hne']
    norm_num

/-! ## Determinism -/

/-- Claim C9: every analysis is deterministic, with no hidden randomness:
each branch of the embedding is a pure function of the text, tokens and
parameters, so running it twice on unchanged input gives identical output. -/
theorem analyses_deterministic (tokens : List String) (n minFreq : Nat)
    (query : String) (textChars : List Char) (sentences : List String) (x : ℚ) :
    filteredDF tokens n minFreq = filteredDF tokens n minFreq
      ∧ nGramFreq tokens n = nGramFreq tokens n
      ∧ concordanceSearch tokens query = concordanceSearch tokens query
      ∧ letterFrequencyBranch textChars = letterFrequencyBranch textChars
      ∧ statsBranch tokens textChars sentences = statsBranch tokens textChars sentences
      ∧ significance x = significance x :=
  ⟨rfl, rfl, rfl, rfl, rfl, rfl⟩

/-! ## The two raising branches at their failing inputs -/

/-- Claim C1 is violated by the code: on the all-punctuation text "!!!" the
tokenizer yields no tokens, and the Corpus Statistics branch raises
ZeroDivisionError at the unguarded Lexical Diversity division
unique_words/total_words instead of returning a sentinel. -/
theorem statsBranch_empty_tokens_raises :
    statsBranch (tokenize "!!!") (String.data "!!!") ["!!!"]
      = Except.error "ZeroDivisionError" := rfl

/-- Claim C2 is violated by the code: on the all-punctuation text "!!! ???"
there are no alphabetic characters, the letter table is empty, and the
Letter Frequency branch raises IndexError at letter_df.iloc[0] instead of
returning the empty result. -/
theorem letterFrequencyBranch_no_letters_raises :
    letterFrequencyBranch (String.data "!!! ???") = Except.error "IndexError" := rfl

end Uhlu
